import Mathlib

/-!
Shallow embedding of the subdaily acclimation engine of
`pyrealm/pmodel/subdaily.py`: the `memory_effect` filter, the guard and
seed-check structure of `SubdailyPModel.__init__`, the daily quantum-yield
settings branch, and the assimilation/GPP tail of the pipeline.

Modelling conventions:

* A floating-point cell is `Val := Option ℚ`; `none` models IEEE NaN and
  exact rational arithmetic stands in for float arithmetic.  Arithmetic on
  cells propagates `none` exactly as every IEEE operation propagates NaN.
* A numpy array with a leading time axis is a `List (List Val)`: a list of
  time slices, each slice holding the flattened trailing elements.  A single
  time slice (for example the `previous_values` seed) is a `List Val`.
* Elementwise numpy operations (`np.isnan`, `np.where`, `+`, `*`) become
  `List.zipWith` / `List.map` over slices.
* Python exceptions become `Except` errors; the error kinds follow the raise
  sites of the source (`ValueError` for invalid input / shape problems,
  `IndexError` for indexing an empty axis, `NotImplementedError`).
-/

/-- A single array cell: `none` models IEEE NaN (`np.nan`). -/
abbrev Val := Option ℚ

/-- `np.isnan` on one cell. -/
def visnan : Val → Bool
  | none => true
  | some _ => false

/-- Multiplication of a cell by a (non-NaN) scalar; NaN propagates. -/
def vscale (a : Val) (q : ℚ) : Val :=
  a.map (fun x => x * q)

/-- Addition of two cells; NaN propagates. -/
def vadd : Val → Val → Val
  | some a, some b => some (a + b)
  | _, _ => none

/-- One cell of `previous * (1 - alpha) + current * alpha`
(source line `memory_values[idx - 1] * (1 - alpha) + values[idx] * alpha`). -/
def blendCell (alpha : ℚ) (p c : Val) : Val :=
  vadd (vscale p (1 - alpha)) (vscale c alpha)

/-- The elementwise weighted blend of two time slices. -/
def sliceBlend (p c : List Val) (alpha : ℚ) : List Val :=
  List.zipWith (blendCell alpha) p c

/-- One cell of the nested `np.where(prev_nan, values[idx],
np.where(curr_nan, memory_values[idx - 1], blend))` of the missing-data loop
(source lines 138-148). -/
def holdCell (alpha : ℚ) (p c : Val) : Val :=
  if visnan p then c
  else if visnan c then p
  else blendCell alpha p c

/-- The elementwise missing-data step applied to two time slices. -/
def sliceHoldover (p c : List Val) (alpha : ℚ) : List Val :=
  List.zipWith (holdCell alpha) p c

/-- `np.any(np.isnan(values))` over the whole array. -/
def hasNaN (values : List (List Val)) : Bool :=
  values.any (fun s => s.any visnan)

/-- The errors `memory_effect` can raise: the explicit
`ValueError("Missing values in data passed to memory_effect")` and the
`IndexError` numpy raises for `values[0]` on an empty first axis. -/
inductive MemErr
  | invalidInput
  | indexError
deriving DecidableEq

/-- The sequential loop `for idx in range(1, len(memory_values))` of
`memory_effect`: from the realised slice `r` it produces the list of all
later realised slices, one per remaining optimal slice. -/
def memLoop (step : List Val → List Val → List Val) :
    List Val → List (List Val) → List (List Val)
  | _, [] => []
  | r, v :: vs => step r v :: memLoop step (step r v) vs

/-- Embedding of `memory_effect(values, previous_values, alpha,
allow_holdover)` (source lines 44-150).  The NaN check comes first, then the
first realised slice is written (raising `IndexError` when the time axis is
empty), then either the plain weighted-average loop (no NaN present) or the
missing-data loop runs. -/
def memory_effect (values : List (List Val)) (previous_values : Option (List Val))
    (alpha : ℚ) (allow_holdover : Bool) : Except MemErr (List (List Val)) :=
  let nan_present := hasNaN values
  if nan_present && !allow_holdover then
    .error .invalidInput
  else
    match values with
    | [] => .error .indexError
    | v0 :: rest =>
      let r0 : List Val :=
        match previous_values with
        | none => v0
        | some pv => sliceBlend pv v0 alpha
      if !nan_present then
        .ok (r0 :: memLoop (fun r v => sliceBlend r v alpha) r0 rest)
      else
        .ok (r0 :: memLoop (fun r v => sliceHoldover r v alpha) r0 rest)

/-- A slice with no missing entries. -/
def cleanSlice (s : List Val) : Prop := ∀ c ∈ s, visnan c = false

/-!
Model of the guard structure of `SubdailyPModel.__init__` (source lines
245-547).  The external collaborators (`SubdailyScaler`, `PModelEnvironment`,
`PModel`, the Arrhenius and optimal-chi registries) live outside this module;
they are represented by the data the constructor actually inspects: the
scaler's datetime count and whether a `set_` method configured its inclusion
rule, the shared leading length and one-slice trailing shape of the forcing
arrays (`PModelEnvironment` guarantees all forcing series are congruent, so
`env.tc` stands for all of them), membership flags for the three method
registries, and the daily optimal series the acclimation model produces,
which feed `memory_effect`.
-/

/-- The error kinds of the engine constructor, one per raise site:
`ValueError` for the datetime/forcing congruence check and the seed shape
check (`ShapeMismatch`), `ValueError` for an unconfigured scaler
(`NotConfigured`), `ValueError` for an unknown registry method
(`UnknownMethod`), `NotImplementedError` for a seed with an unsupported fill
kind, plus the errors `memory_effect` itself can raise. -/
inductive EngineError
  | shapeMismatch
  | notConfigured
  | unknownMethod
  | notImplemented
  | invalidInput
  | indexError
deriving DecidableEq

/-- The data of `fs_scaler` inspected by the constructor:
`fs_scaler.datetimes.shape[0]` and `hasattr(fs_scaler, "include")`. -/
structure SubdailyScalerM where
  datetimes_len : ℕ
  include_set : Bool
deriving DecidableEq

/-- The data of `env` inspected by the constructor: `env.tc.shape[0]` (the
leading-axis length shared by every forcing series) and `env.tc[0].shape`
(the trailing shape of one time slice of the forcing). -/
structure EnvM where
  tc_len : ℕ
  tc_slice_shape : List ℕ
deriving DecidableEq

/-- One entry of `previous_realised`: its numpy shape, and its flattened
data as fed to `memory_effect`. -/
structure SeedM where
  shape : List ℕ
  data : List Val
deriving DecidableEq

/-- The constructor arguments and collaborator products that drive the
checks and the `memory_effect` stage: the three `*_opt` series are the daily
optimal values the acclimation P Model produces (steps 1-4 of the source,
computed by external collaborators). -/
structure InitArgs where
  env : EnvM
  fs_scaler : SubdailyScalerM
  method_optchi_known : Bool
  method_kphio_known : Bool
  method_arrhenius_known : Bool
  xi_opt : List (List Val)
  vcmax25_opt : List (List Val)
  jmax25_opt : List (List Val)
  alpha : ℚ
  allow_holdover : Bool
  fill_kind : String
  previous_realised : Option (SeedM × SeedM × SeedM)
deriving DecidableEq

/-- The three realised daily series the constructor stores after its
`memory_effect` stage (step 5 of the source). -/
structure InitOk where
  xi_real : List (List Val)
  vcmax25_real : List (List Val)
  jmax25_real : List (List Val)
deriving DecidableEq

/-- The `previous_realised` congruence check of the constructor (source
lines 428-455): with a seed supplied, first any `fill_kind` other than
`"previous"` raises `NotImplementedError`, then all three seeds must have
the shape of one time slice of the forcing or a `ValueError` is raised;
without a seed the three values default to `None`. -/
def checkPreviousRealised (fill_kind : String) (expected_shape : List ℕ) :
    Option (SeedM × SeedM × SeedM) →
      Except EngineError (Option (List Val) × Option (List Val) × Option (List Val))
  | some (s1, s2, s3) =>
    if fill_kind ≠ "previous" then
      .error .notImplemented
    else if ¬(s1.shape = expected_shape ∧ s2.shape = expected_shape ∧
        s3.shape = expected_shape) then
      .error .shapeMismatch
    else
      .ok (some s1.data, some s2.data, some s3.data)
  | none => .ok (none, none, none)

/-- Re-raise a `memory_effect` error from inside the constructor. -/
def liftMem : Except MemErr (List (List Val)) → Except EngineError (List (List Val))
  | .ok r => .ok r
  | .error .invalidInput => .error .invalidInput
  | .error .indexError => .error .indexError

/-- The check-and-memory-effect skeleton of `SubdailyPModel.__init__`, in
source order: datetime/forcing congruence (line 273), scaler configured
(line 277), the three registry checks (lines 288, 296, 305), the
`previous_realised` checks (lines 428-455), then `memory_effect` applied to
the three daily optimal series (lines 457-477).  An error short-circuits, so
no output is produced after a failed check. -/
def subdailyPModelInit (a : InitArgs) : Except EngineError InitOk :=
  if a.fs_scaler.datetimes_len ≠ a.env.tc_len then
    .error .shapeMismatch
  else if !a.fs_scaler.include_set then
    .error .notConfigured
  else if !a.method_optchi_known then
    .error .unknownMethod
  else if !a.method_kphio_known then
    .error .unknownMethod
  else if !a.method_arrhenius_known then
    .error .unknownMethod
  else do
    let seeds ← checkPreviousRealised a.fill_kind a.env.tc_slice_shape
      a.previous_realised
    let xi_real ← liftMem
      (memory_effect a.xi_opt seeds.1 a.alpha a.allow_holdover)
    let vcmax25_real ← liftMem
      (memory_effect a.vcmax25_opt seeds.2.1 a.alpha a.allow_holdover)
    let jmax25_real ← liftMem
      (memory_effect a.jmax25_opt seeds.2.2 a.alpha a.allow_holdover)
    .ok ⟨xi_real, vcmax25_real, jmax25_real⟩

/-- The daily quantum-yield settings branch (source lines 352-366): when the
reference value of the subdaily kphio object is an array of more than one
element, the daily acclimation model is fitted with method `"fixed"` and the
acclimation-window daily means of the subdaily kphio series as its
reference; otherwise it reuses the subdaily method and reference.  Numpy
arrays and `fs_scaler.get_daily_means` are abstracted: `A` is the array
type, `size` the element count, and `daily_means_of_kphio` the collaborator
product `fs_scaler.get_daily_means(self.kphio.kphio, ...)`. -/
def dailyKphioSettings {A : Type} (size : A → ℕ) (method_kphio : String)
    (reference_kphio : A) (daily_means_of_kphio : A) : String × A :=
  if size reference_kphio > 1 then
    ("fixed", daily_means_of_kphio)
  else
    (method_kphio, reference_kphio)

/-- The productivity outputs of the constructor tail (source lines
527-547), one record per array cell. -/
structure AssimOutputs (α : Type) where
  subdaily_Ac : α
  subdaily_J : α
  subdaily_Aj : α
  gpp : α
deriving DecidableEq

/-- One-cell embedding of the assimilation tail of `SubdailyPModel.__init__`
(source lines 527-547): `subdaily_Ac = subdaily_vcmax * optimal_chi.mc`,
`iabs = fapar * ppfd`, the non-rectangular-hyperbola electron transport
`subdaily_J`, `subdaily_Aj = (subdaily_J / 4) * optimal_chi.mj` and
`gpp = np.minimum(subdaily_Aj, subdaily_Ac) * k_c_molmass`.  All source
operations are elementwise, so one cell carries the whole computation; the
square root (`np.sqrt`, an external numpy function) is a parameter, which
the theorems instantiate with `Real.sqrt`. -/
def assimilation {α : Type} [LinearOrderedField α] (sqrt : α → α)
    (kphio fapar ppfd subdaily_vcmax subdaily_jmax mc mj k_c_molmass : α) :
    AssimOutputs α :=
  let subdaily_Ac := subdaily_vcmax * mc
  let iabs := fapar * ppfd
  let subdaily_J := (4 * kphio * iabs) /
    sqrt (1 + ((4 * kphio * iabs) / subdaily_jmax) ^ 2)
  let subdaily_Aj := (subdaily_J / 4) * mj
  ⟨subdaily_Ac, subdaily_J, subdaily_Aj,
    min subdaily_Aj subdaily_Ac * k_c_molmass⟩

section MemoryEffectLemmas

lemma memLoop_length (step : List Val → List Val → List Val) :
    ∀ (vs : List (List Val)) (r : List Val), (memLoop step r vs).length = vs.length := by
  intro vs
  induction vs with
  | nil => intro r; rfl
  | cons v vs ih => intro r; simp [memLoop, ih]

/-- The realised chain satisfies the step recursion at every index. -/
lemma memLoop_chain (step : List Val → List Val → List Val) :
    ∀ (vs : List (List Val)) (r0 : List Val) (t : ℕ) (rt vt : List Val),
      (r0 :: memLoop step r0 vs)[t]? = some rt →
      vs[t]? = some vt →
      (r0 :: memLoop step r0 vs)[t + 1]? = some (step rt vt) := by
  intro vs
  induction vs with
  | nil =>
    intro r0 t rt vt h1 h2
    simp at h2
  | cons v vs ih =>
    intro r0 t rt vt h1 h2
    cases t with
    | zero =>
      simp only [List.getElem?_cons_zero, Option.some.injEq] at h1 h2
      subst h1; subst h2
      simp [memLoop]
    | succ t =>
      simp only [memLoop, List.getElem?_cons_succ] at h1 h2
      have h3 := ih (step r0 v) t rt vt h1 h2
      simpa only [memLoop, List.getElem?_cons_succ] using h3

lemma memLoop_all_mem (step : List Val → List Val → List Val)
    (P : List Val → Prop)
    (hstep : ∀ r v, P r → P v → P (step r v)) :
    ∀ (vs : List (List Val)) (r0 : List Val), P r0 → (∀ s ∈ vs, P s) →
      ∀ s ∈ memLoop step r0 vs, P s := by
  intro vs
  induction vs with
  | nil => intro r0 _ _ s hs; simp [memLoop] at hs
  | cons v vs ih =>
    intro r0 hr0 hvs s hs
    simp only [memLoop, List.mem_cons] at hs
    have hv : P v := hvs v (by simp)
    have hstep1 : P (step r0 v) := hstep r0 v hr0 hv
    rcases hs with h | h
    · exact h ▸ hstep1
    · exact ih (step r0 v) hstep1 (fun s hs => hvs s (by simp [hs])) s h

lemma mem_of_getElem?_eq {α : Type} {l : List α} {n : ℕ} {a : α}
    (h : l[n]? = some a) : a ∈ l := by
  induction l generalizing n with
  | nil => simp at h
  | cons b l ih =>
    cases n with
    | zero =>
      simp only [List.getElem?_cons_zero, Option.some.injEq] at h
      simp [h]
    | succ n =>
      simp only [List.getElem?_cons_succ] at h
      exact List.mem_cons_of_mem _ (ih h)

lemma hasNaN_eq_false_clean {values : List (List Val)}
    (hn : hasNaN values = false) : ∀ s ∈ values, cleanSlice s := by
  intro s hs c hc
  have h1 : values.any (fun s => s.any visnan) = false := hn
  rw [List.any_eq_false] at h1
  have h2 := h1 s hs
  cases hv : visnan c with
  | false => rfl
  | true => exact absurd (List.any_eq_true.mpr ⟨c, hc, hv⟩) h2

lemma blendCell_clean (alpha : ℚ) (p c : Val) (hp : visnan p = false)
    (hc : visnan c = false) : visnan (blendCell alpha p c) = false := by
  cases p with
  | none => simp [visnan] at hp
  | some a =>
    cases c with
    | none => simp [visnan] at hc
    | some b => rfl

lemma sliceBlend_clean (alpha : ℚ) :
    ∀ (p c : List Val), cleanSlice p → cleanSlice c →
      cleanSlice (sliceBlend p c alpha) := by
  intro p
  induction p with
  | nil =>
    intro c _ _ x hx
    simp [sliceBlend] at hx
  | cons a p ih =>
    intro c hp hc x hx
    cases c with
    | nil => simp [sliceBlend] at hx
    | cons b c =>
      simp only [sliceBlend, List.zipWith_cons_cons, List.mem_cons] at hx
      rcases hx with rfl | hx
      · exact blendCell_clean alpha a b (hp a (by simp)) (hc b (by simp))
      · exact ih c (fun y hy => hp y (by simp [hy]))
          (fun y hy => hc y (by simp [hy])) x hx

lemma sliceHoldover_eq_blend (alpha : ℚ) :
    ∀ (p c : List Val), cleanSlice p → cleanSlice c →
      sliceHoldover p c alpha = sliceBlend p c alpha := by
  intro p
  induction p with
  | nil => intro c _ _; rfl
  | cons a p ih =>
    intro c hp hc
    cases c with
    | nil => rfl
    | cons b c =>
      simp only [sliceHoldover, sliceBlend, List.zipWith_cons_cons]
      have ha := hp a (by simp)
      have hb := hc b (by simp)
      have hhead : holdCell alpha a b = blendCell alpha a b := by
        simp [holdCell, ha, hb]
      have htail := ih c (fun y hy => hp y (by simp [hy]))
        (fun y hy => hc y (by simp [hy]))
      simp only [sliceHoldover, sliceBlend] at htail
      rw [hhead, htail]

lemma sliceBlend_getElem_nan (alpha : ℚ) :
    ∀ (ps cs : List Val) (j : ℕ) (pj cj : Val),
      ps[j]? = some pj → cs[j]? = some cj → (visnan pj || visnan cj) = true →
      (sliceBlend ps cs alpha)[j]? = some none := by
  intro ps
  induction ps with
  | nil => intro cs j pj cj h1; simp at h1
  | cons a p ih =>
    intro cs j pj cj h1 h2 h3
    cases cs with
    | nil => simp at h2
    | cons b c =>
      cases j with
      | zero =>
        simp only [List.getElem?_cons_zero, Option.some.injEq] at h1 h2
        subst h1; subst h2
        simp only [sliceBlend, List.zipWith_cons_cons, List.getElem?_cons_zero,
          Option.some.injEq]
        rw [Bool.or_eq_true] at h3
        rcases h3 with h | h
        · cases a with
          | none => rfl
          | some x => simp [visnan] at h
        · cases b with
          | none => cases a <;> rfl
          | some x => simp [visnan] at h
      | succ j =>
        simp only [List.getElem?_cons_succ] at h1 h2
        simp only [sliceBlend, List.zipWith_cons_cons, List.getElem?_cons_succ]
        exact ih c j pj cj h1 h2 h3

end MemoryEffectLemmas

/-- C10: `memory_effect` on an array whose leading (time) axis is empty fails
with an uncaught indexing error — the NaN check passes vacuously and the
unconditional write of index 0 fails — rather than returning an empty array,
for every seed, alpha and holdover setting. -/
theorem memory_effect_empty_C10 (pv : Option (List Val)) (alpha : ℚ) (ho : Bool) :
    memory_effect [] pv alpha ho = .error .indexError := rfl

/-- C3: whenever the input contains at least one missing (NaN) entry and
`allow_holdover` is false, `memory_effect` fails with the `InvalidInput`
(`ValueError`) error and produces no output, regardless of the seed, of alpha
and of where the missing entry lies. -/
theorem memory_effect_missing_no_holdover_C3
    (values : List (List Val)) (pv : Option (List Val)) (alpha : ℚ)
    (hnan : hasNaN values = true) :
    memory_effect values pv alpha false = .error .invalidInput := by
  simp [memory_effect, hnan]

/-- C3 witness: a concrete missing entry in the second slice. -/
theorem memory_effect_missing_no_holdover_C3_witness :
    hasNaN [[some 1], [none]] = true ∧
      memory_effect [[some 1], [none]] (some [some 2]) (1/2) false =
        .error .invalidInput :=
  ⟨by decide,
   memory_effect_missing_no_holdover_C3 [[some 1], [none]] (some [some 2]) (1/2)
     (by decide)⟩

/-- C1: on an input with a non-empty time axis and no missing values, for
every alpha in (0, 1] and every holdover setting, `memory_effect` succeeds
and returns an array of the same shape whose first slice is `O[0]` without a
seed and `previous_values * (1 - alpha) + O[0] * alpha` with one, and which
satisfies `R[t] = R[t-1] * (1 - alpha) + O[t] * alpha` for every `t > 0`,
elementwise over the trailing elements; in particular
`memory_effect [1, 2, 3]` with `alpha = 1/2` gives `[1, 3/2, 9/4]`. -/
theorem memory_effect_recursion_C1
    (values : List (List Val)) (pv : Option (List Val)) (alpha : ℚ)
    (ho : Bool) (k : ℕ)
    (hne : values ≠ []) (hnan : hasNaN values = false)
    (halpha : 0 < alpha ∧ alpha ≤ 1)
    (hvk : ∀ s ∈ values, s.length = k)
    (hpk : ∀ p, pv = some p → p.length = k) :
    ∃ R, memory_effect values pv alpha ho = .ok R ∧
      R.length = values.length ∧
      (∀ s ∈ R, s.length = k) ∧
      (pv = none → R[0]? = values[0]?) ∧
      (∀ p, pv = some p → ∀ v0, values[0]? = some v0 →
        R[0]? = some (sliceBlend p v0 alpha)) ∧
      (∀ t rt vt, R[t]? = some rt → values[t + 1]? = some vt →
        R[t + 1]? = some (sliceBlend rt vt alpha)) ∧
      memory_effect [[some 1], [some 2], [some 3]] none (1/2) false =
        .ok [[some 1], [some (3/2)], [some (9/4)]] := by
  have hconc : memory_effect [[some 1], [some 2], [some 3]] none (1/2) false =
      .ok [[some 1], [some (3/2)], [some (9/4)]] := by
    simp [memory_effect, hasNaN, memLoop, sliceBlend, blendCell, vadd, vscale,
      visnan]
    norm_num
  obtain ⟨v0, rest, rfl⟩ : ∃ v0 rest, values = v0 :: rest := by
    cases values with
    | nil => exact absurd rfl hne
    | cons a l => exact ⟨a, l, rfl⟩
  have hv0 : v0.length = k := hvk v0 (by simp)
  have hrest : ∀ s ∈ rest, s.length = k := fun s hs => hvk s (by simp [hs])
  have hstep : ∀ r v : List Val, r.length = k → v.length = k →
      (sliceBlend r v alpha).length = k := by
    intro r v hr hv
    simp [sliceBlend, List.length_zipWith, hr, hv]
  cases pv with
  | none =>
    refine ⟨v0 :: memLoop (fun r v => sliceBlend r v alpha) v0 rest,
      ?_, ?_, ?_, ?_, ?_, ?_, hconc⟩
    · simp [memory_effect, hnan]
    · simp [memLoop_length]
    · intro s hs
      rcases List.mem_cons.mp hs with rfl | hs
      · exact hv0
      · exact memLoop_all_mem _ (fun s => s.length = k) hstep rest v0 hv0
          hrest s hs
    · intro _; simp
    · intro p hp; cases hp
    · intro t rt vt h1 h2
      exact memLoop_chain _ rest v0 t rt vt h1 (by simpa using h2)
  | some p =>
    have hp : p.length = k := hpk p rfl
    have hr0 : (sliceBlend p v0 alpha).length = k := hstep p v0 hp hv0
    refine ⟨sliceBlend p v0 alpha ::
      memLoop (fun r v => sliceBlend r v alpha) (sliceBlend p v0 alpha) rest,
      ?_, ?_, ?_, ?_, ?_, ?_, hconc⟩
    · simp [memory_effect, hnan]
    · simp [memLoop_length]
    · intro s hs
      rcases List.mem_cons.mp hs with rfl | hs
      · exact hr0
      · exact memLoop_all_mem _ (fun s => s.length = k) hstep rest _ hr0
          hrest s hs
    · intro h; cases h
    · intro q hq v0h hv0h
      obtain rfl : q = p := by cases hq; rfl
      simp only [List.getElem?_cons_zero, Option.some.injEq] at hv0h
      subst hv0h
      simp
    · intro t rt vt h1 h2
      exact memLoop_chain _ rest _ t rt vt h1 (by simpa using h2)

/-- C1 witness: the theorem applied to the concrete two-step series
`[[1], [2]]` with no seed and `alpha = 1/2`. -/
theorem memory_effect_recursion_C1_witness :
    ∃ R, memory_effect [[some 1], [some 2]] none (1/2) false = .ok R ∧
      R.length = 2 ∧ R[1]? = some [some (3/2)] := by
  obtain ⟨R, h1, h2, h3, h4, h5, h6, h7⟩ :=
    memory_effect_recursion_C1 [[some 1], [some 2]] none (1/2) false 1
      (by simp) (by decide) (by constructor <;> norm_num)
      (by decide) (fun p hp => by cases hp)
  refine ⟨R, h1, by simpa using h2, ?_⟩
  have h0 : R[0]? = some [some 1] := by rw [h4 rfl]; rfl
  have hstep := h6 0 [some 1] [some 2] h0 (by rfl)
  rw [hstep]
  simp [sliceBlend, blendCell, vadd, vscale]
  norm_num

/-- C2: with `allow_holdover = true` and no seed, `memory_effect` always
succeeds, keeps the first slice `O[0]`, and for every `t > 0` computes
`R[t]` from `R[t-1]` and `O[t]` by the elementwise 2x2 missing-value table
(`holdCell`): the current optimum if the previous realised value is missing,
the previous realised value if only the current optimum is missing, and the
weighted blend when both are present; in particular
`memory_effect [1, NaN, 3]` with `alpha = 1/2` gives `[1, 1, 2]`. -/
theorem memory_effect_holdover_table_C2
    (values : List (List Val)) (alpha : ℚ) (hne : values ≠ []) :
    ∃ R, memory_effect values none alpha true = .ok R ∧
      R.length = values.length ∧
      R[0]? = values[0]? ∧
      (∀ t rt vt, R[t]? = some rt → values[t + 1]? = some vt →
        R[t + 1]? = some (sliceHoldover rt vt alpha)) ∧
      memory_effect [[some 1], [none], [some 3]] none (1/2) true =
        .ok [[some 1], [some 1], [some 2]] := by
  have hconc : memory_effect [[some 1], [none], [some 3]] none (1/2) true =
      .ok [[some 1], [some 1], [some 2]] := by
    simp [memory_effect, hasNaN, memLoop, sliceHoldover, holdCell, sliceBlend,
      blendCell, vadd, vscale, visnan]
    norm_num
  obtain ⟨v0, rest, rfl⟩ : ∃ v0 rest, values = v0 :: rest := by
    cases values with
    | nil => exact absurd rfl hne
    | cons a l => exact ⟨a, l, rfl⟩
  cases hn : hasNaN (v0 :: rest) with
  | true =>
    refine ⟨v0 :: memLoop (fun r v => sliceHoldover r v alpha) v0 rest,
      ?_, ?_, by simp, ?_, hconc⟩
    · simp [memory_effect, hn]
    · simp [memLoop_length]
    · intro t rt vt h1 h2
      exact memLoop_chain _ rest v0 t rt vt h1 (by simpa using h2)
  | false =>
    have hclean : ∀ s ∈ v0 :: rest, cleanSlice s := hasNaN_eq_false_clean hn
    have hv0c : cleanSlice v0 := hclean v0 (by simp)
    have hrestc : ∀ s ∈ rest, cleanSlice s :=
      fun s hs => hclean s (by simp [hs])
    refine ⟨v0 :: memLoop (fun r v => sliceBlend r v alpha) v0 rest,
      ?_, ?_, by simp, ?_, hconc⟩
    · simp [memory_effect, hn]
    · simp [memLoop_length]
    · intro t rt vt h1 h2
      have h2r : rest[t]? = some vt := by simpa using h2
      have hchain := memLoop_chain (fun r v => sliceBlend r v alpha)
        rest v0 t rt vt h1 h2r
      have hchainc : ∀ s ∈ v0 :: memLoop (fun r v => sliceBlend r v alpha)
          v0 rest, cleanSlice s := by
        intro s hs
        rcases List.mem_cons.mp hs with rfl | hs
        · exact hv0c
        · exact memLoop_all_mem _ cleanSlice
            (fun r v hr hv => sliceBlend_clean alpha r v hr hv)
            rest v0 hv0c hrestc s hs
      have hrt : cleanSlice rt := hchainc rt (mem_of_getElem?_eq h1)
      have hvt : cleanSlice vt := hrestc vt (mem_of_getElem?_eq h2r)
      rw [hchain, sliceHoldover_eq_blend alpha rt vt hrt hvt]

/-- C2 witness: the theorem applied to the holdover scenario
`[[1], [NaN], [3]]` with `alpha = 1/2`. -/
theorem memory_effect_holdover_table_C2_witness :
    ∃ R, memory_effect [[some 1], [none], [some 3]] none (1/2) true = .ok R ∧
      R.length = 3 ∧
      memory_effect [[some 1], [none], [some 3]] none (1/2) true =
        .ok [[some 1], [some 1], [some 2]] := by
  obtain ⟨R, h1, h2, h3, h4, h5⟩ :=
    memory_effect_holdover_table_C2 [[some 1], [none], [some 3]] (1/2)
      (by simp)
  exact ⟨R, h1, by simpa using h2, h5⟩

/-- C9: when a seed is supplied, the first realised slice is always the
blend `previous_values * (1 - alpha) + O[0] * alpha`, whatever the holdover
setting: the missing-value table only governs steps `t >= 1`, so a NaN in
the seed or in `O[0]` makes `R[0]` NaN rather than being held over. -/
theorem memory_effect_seed_first_C9
    (values : List (List Val)) (p : List Val) (alpha : ℚ) (ho : Bool)
    (hne : values ≠ []) (hok : hasNaN values = false ∨ ho = true) :
    ∃ R, memory_effect values (some p) alpha ho = .ok R ∧
      ∀ v0, values[0]? = some v0 →
        R[0]? = some (sliceBlend p v0 alpha) ∧
        ∀ (j : ℕ) (pj vj : Val), p[j]? = some pj → v0[j]? = some vj →
          (visnan pj || visnan vj) = true →
          (sliceBlend p v0 alpha)[j]? = some none := by
  obtain ⟨v0, rest, rfl⟩ : ∃ v0 rest, values = v0 :: rest := by
    cases values with
    | nil => exact absurd rfl hne
    | cons a l => exact ⟨a, l, rfl⟩
  cases hn : hasNaN (v0 :: rest) with
  | false =>
    refine ⟨sliceBlend p v0 alpha ::
      memLoop (fun r v => sliceBlend r v alpha) (sliceBlend p v0 alpha) rest,
      by simp [memory_effect, hn], ?_⟩
    intro w0 hw0
    simp only [List.getElem?_cons_zero, Option.some.injEq] at hw0
    subst hw0
    exact ⟨by simp, fun j pj vj h1 h2 h3 =>
      sliceBlend_getElem_nan alpha p v0 j pj vj h1 h2 h3⟩
  | true =>
    have hho : ho = true := by
      rcases hok with h | h
      · rw [h] at hn; cases hn
      · exact h
    subst hho
    refine ⟨sliceBlend p v0 alpha ::
      memLoop (fun r v => sliceHoldover r v alpha) (sliceBlend p v0 alpha)
        rest,
      by simp [memory_effect, hn], ?_⟩
    intro w0 hw0
    simp only [List.getElem?_cons_zero, Option.some.injEq] at hw0
    subst hw0
    exact ⟨by simp, fun j pj vj h1 h2 h3 =>
      sliceBlend_getElem_nan alpha p v0 j pj vj h1 h2 h3⟩

/-- C9 witness: a NaN first optimum with a clean seed and holdover enabled
still yields a NaN first realised slice. -/
theorem memory_effect_seed_first_C9_witness :
    ∃ R, memory_effect [[none]] (some [some 1]) (1/2) true = .ok R ∧
      R[0]? = some [none] := by
  obtain ⟨R, h1, h2⟩ :=
    memory_effect_seed_first_C9 [[none]] [some 1] (1/2) true (by simp)
      (Or.inr rfl)
  obtain ⟨h3, h4⟩ := h2 [none] rfl
  refine ⟨R, h1, ?_⟩
  rw [h3]
  simp [sliceBlend, blendCell, vadd, vscale]

/-- C4: constructing the engine fails with the `ShapeMismatch` error
whenever the number of subdaily timestamps of the window definition differs
from the shared leading-axis length of the forcing series, and — once that
congruence holds — fails with the `NotConfigured` error whenever the
window's inclusion rule has not been set; in both cases the constructor
errors out before any pipeline output is produced. -/
theorem subdaily_init_congruence_C4 (a : InitArgs) :
    (a.fs_scaler.datetimes_len ≠ a.env.tc_len →
      subdailyPModelInit a = .error .shapeMismatch) ∧
    (a.fs_scaler.datetimes_len = a.env.tc_len →
      a.fs_scaler.include_set = false →
      subdailyPModelInit a = .error .notConfigured) := by
  constructor
  · intro h
    simp [subdailyPModelInit, h]
  · intro h1 h2
    simp [subdailyPModelInit, h1, h2]

/-- C4 witness: forcing of length 10 against a window over 9 timestamps
raises `ShapeMismatch`; congruent lengths with an unconfigured window raise
`NotConfigured`. -/
theorem subdaily_init_congruence_C4_witness :
    subdailyPModelInit ⟨⟨10, []⟩, ⟨9, true⟩, true, true, true, [], [], [],
        1/2, false, "previous", none⟩ = .error .shapeMismatch ∧
    subdailyPModelInit ⟨⟨10, []⟩, ⟨10, false⟩, true, true, true, [], [], [],
        1/2, false, "previous", none⟩ = .error .notConfigured := by
  constructor
  · exact (subdaily_init_congruence_C4 _).1 (by decide)
  · exact (subdaily_init_congruence_C4 _).2 rfl rfl

/-- C6: with the earlier checks passing and a `previous_realised` seed
supplied, the constructor fails with the `NotImplemented` error whenever
`fill_kind` is not `"previous"` (this check runs first), and with
`fill_kind = "previous"` it fails with the `ShapeMismatch` error unless all
three seed entries have exactly the trailing shape of one time slice of the
forcing. -/
theorem subdaily_init_seed_checks_C6 (a : InitArgs) (s1 s2 s3 : SeedM)
    (hseed : a.previous_realised = some (s1, s2, s3))
    (h1 : a.fs_scaler.datetimes_len = a.env.tc_len)
    (h2 : a.fs_scaler.include_set = true)
    (h3 : a.method_optchi_known = true)
    (h4 : a.method_kphio_known = true)
    (h5 : a.method_arrhenius_known = true) :
    (a.fill_kind ≠ "previous" →
      subdailyPModelInit a = .error .notImplemented) ∧
    (a.fill_kind = "previous" →
      ¬(s1.shape = a.env.tc_slice_shape ∧ s2.shape = a.env.tc_slice_shape ∧
        s3.shape = a.env.tc_slice_shape) →
      subdailyPModelInit a = .error .shapeMismatch) := by
  constructor
  · intro hf
    simp [subdailyPModelInit, h1, h2, h3, h4, h5, hseed,
      checkPreviousRealised, hf]
    rfl
  · intro hf hsh
    simp [subdailyPModelInit, h1, h2, h3, h4, h5, hseed,
      checkPreviousRealised, hf, hsh]
    rfl

/-- C6 witness: a seed together with `fill_kind = "linear"` raises
`NotImplemented` (even though the seed shapes match), and with
`fill_kind = "previous"` a wrong-shaped seed raises `ShapeMismatch`. -/
theorem subdaily_init_seed_checks_C6_witness :
    subdailyPModelInit ⟨⟨3, []⟩, ⟨3, true⟩, true, true, true, [], [], [],
        1/2, false, "linear", some (⟨[], []⟩, ⟨[], []⟩, ⟨[], []⟩)⟩ =
      .error .notImplemented ∧
    subdailyPModelInit ⟨⟨3, []⟩, ⟨3, true⟩, true, true, true, [], [], [],
        1/2, false, "previous", some (⟨[2], []⟩, ⟨[], []⟩, ⟨[], []⟩)⟩ =
      .error .shapeMismatch := by
  constructor
  · exact (subdaily_init_seed_checks_C6 _ _ _ _ rfl rfl rfl rfl rfl rfl).1
      (by decide)
  · exact (subdaily_init_seed_checks_C6 _ _ _ _ rfl rfl rfl rfl rfl rfl).2
      rfl (by decide)

/-- C7: when the reference quantum-yield value of the subdaily kphio object
has more than one element, the daily acclimation model is fitted with the
method forced to `"fixed"` and the window daily means of the subdaily kphio
series as reference; otherwise it is fitted with the subdaily method and
reference unchanged. -/
theorem daily_kphio_settings_C7 {A : Type} (size : A → ℕ)
    (method_kphio : String) (reference_kphio daily_means_of_kphio : A) :
    (size reference_kphio > 1 →
      dailyKphioSettings size method_kphio reference_kphio
        daily_means_of_kphio = ("fixed", daily_means_of_kphio)) ∧
    (¬size reference_kphio > 1 →
      dailyKphioSettings size method_kphio reference_kphio
        daily_means_of_kphio = (method_kphio, reference_kphio)) := by
  constructor <;> intro h <;> simp [dailyKphioSettings, h]

/-- C7 witness: a two-element reference forces the fixed method with the
daily means; a one-element reference keeps the subdaily settings. -/
theorem daily_kphio_settings_C7_witness :
    dailyKphioSettings List.length "temperature" [(1:ℚ), 2] [(3:ℚ)] =
      ("fixed", [(3:ℚ)]) ∧
    dailyKphioSettings List.length "temperature" [(5:ℚ)] [(3:ℚ)] =
      ("temperature", [(5:ℚ)]) := by
  constructor
  · exact (daily_kphio_settings_C7 List.length "temperature" [(1:ℚ), 2]
      [(3:ℚ)]).1 (by decide)
  · exact (daily_kphio_settings_C7 List.length "temperature" [(5:ℚ)]
      [(3:ℚ)]).2 (by decide)

/-- C5: in the completed pipeline tail, the CO2-limited assimilation equals
subdaily Vcmax times the CO2-limitation multiplier, and GPP is the
elementwise minimum of the light- and CO2-limited assimilation streams
scaled by the carbon molar-mass constant. -/
theorem assimilation_gpp_C5 (kphio fapar ppfd vcmax jmax mc mj kc : ℝ) :
    (assimilation Real.sqrt kphio fapar ppfd vcmax jmax mc mj kc).subdaily_Ac =
      vcmax * mc ∧
    (assimilation Real.sqrt kphio fapar ppfd vcmax jmax mc mj kc).gpp =
      min (assimilation Real.sqrt kphio fapar ppfd vcmax jmax mc mj
          kc).subdaily_Aj
        (assimilation Real.sqrt kphio fapar ppfd vcmax jmax mc mj
          kc).subdaily_Ac * kc :=
  ⟨rfl, rfl⟩

/-- The non-rectangular-hyperbola response `x / sqrt (1 + (x/j)^2)` is
strictly increasing on the nonnegative half-line. -/
lemma nrh_strictMono {j : ℝ} (hj : 0 < j) {x y : ℝ} (hx : 0 ≤ x)
    (hxy : x < y) :
    x / Real.sqrt (1 + (x / j) ^ 2) < y / Real.sqrt (1 + (y / j) ^ 2) := by
  have hy : 0 < y := lt_of_le_of_lt hx hxy
  have hdx : (0:ℝ) < 1 + (x / j) ^ 2 := by positivity
  have hdy : (0:ℝ) < 1 + (y / j) ^ 2 := by positivity
  have hsx : 0 < Real.sqrt (1 + (x / j) ^ 2) := Real.sqrt_pos.mpr hdx
  have hsy : 0 < Real.sqrt (1 + (y / j) ^ 2) := Real.sqrt_pos.mpr hdy
  have hx2 : x ^ 2 < y ^ 2 := by nlinarith
  have hsq : (x / Real.sqrt (1 + (x / j) ^ 2)) ^ 2 <
      (y / Real.sqrt (1 + (y / j) ^ 2)) ^ 2 := by
    have e1 : ∀ a b : ℝ, 0 ≤ b → (a / Real.sqrt b) ^ 2 = a ^ 2 / b := by
      intro a b hb
      rw [div_pow, Real.sq_sqrt hb]
    rw [e1 x _ hdx.le, e1 y _ hdy.le, div_lt_div_iff₀ hdx hdy]
    have hkey : x ^ 2 * (1 + (y / j) ^ 2) - y ^ 2 * (1 + (x / j) ^ 2) =
        x ^ 2 - y ^ 2 := by
      field_simp
      ring
    linarith [hx2, hkey]
  have hys : 0 ≤ y / Real.sqrt (1 + (y / j) ^ 2) := div_nonneg hy.le hsy.le
  exact lt_of_pow_lt_pow_left₀ 2 hys hsq

/-- C8: with the quantum yield, subdaily Jmax, the light-limitation
multiplier positive and the molar-mass constant nonnegative, increasing the
absorbed light `iabs = fapar * ppfd` strictly increases the light-limited
assimilation, and GPP never decreases. -/
theorem assimilation_light_monotone_C8
    (kphio jmax vcmax mc mj kc fapar1 ppfd1 fapar2 ppfd2 : ℝ)
    (hk : 0 < kphio) (hj : 0 < jmax) (hmj : 0 < mj) (hkc : 0 ≤ kc)
    (h0 : 0 ≤ fapar1 * ppfd1) (hlt : fapar1 * ppfd1 < fapar2 * ppfd2) :
    (assimilation Real.sqrt kphio fapar1 ppfd1 vcmax jmax mc mj
        kc).subdaily_Aj <
      (assimilation Real.sqrt kphio fapar2 ppfd2 vcmax jmax mc mj
        kc).subdaily_Aj ∧
    (assimilation Real.sqrt kphio fapar1 ppfd1 vcmax jmax mc mj kc).gpp ≤
      (assimilation Real.sqrt kphio fapar2 ppfd2 vcmax jmax mc mj kc).gpp := by
  have h4k : (0:ℝ) < 4 * kphio := by linarith
  have hu0 : 0 ≤ 4 * kphio * (fapar1 * ppfd1) := by positivity
  have hult : 4 * kphio * (fapar1 * ppfd1) < 4 * kphio * (fapar2 * ppfd2) :=
    mul_lt_mul_of_pos_left hlt h4k
  have hJ := nrh_strictMono hj hu0 hult
  have hAj : ((4 * kphio * (fapar1 * ppfd1)) /
        Real.sqrt (1 + ((4 * kphio * (fapar1 * ppfd1)) / jmax) ^ 2) / 4) *
        mj <
      ((4 * kphio * (fapar2 * ppfd2)) /
        Real.sqrt (1 + ((4 * kphio * (fapar2 * ppfd2)) / jmax) ^ 2) / 4) *
        mj := by
    apply mul_lt_mul_of_pos_right _ hmj
    exact (div_lt_div_iff_of_pos_right (show (0:ℝ) < 4 by norm_num)).mpr hJ
  exact ⟨hAj, mul_le_mul_of_nonneg_right (min_le_min hAj.le le_rfl) hkc⟩

/-- C8 witness: absorbed light rising from 0 to 1 with unit parameters. -/
theorem assimilation_light_monotone_C8_witness :
    (assimilation Real.sqrt 1 0 0 1 1 1 1 1).subdaily_Aj <
      (assimilation Real.sqrt 1 1 1 1 1 1 1 1).subdaily_Aj ∧
    (assimilation Real.sqrt 1 0 0 1 1 1 1 1).gpp ≤
      (assimilation Real.sqrt 1 1 1 1 1 1 1 1).gpp :=
  assimilation_light_monotone_C8 1 1 1 1 1 1 0 0 1 1 one_pos one_pos one_pos
    zero_le_one (by norm_num) (by norm_num)
